import Mathlib

/-!
Verification of the editing engine of `ki-editor` (file `src/engine.rs`).

The rope is modelled as a list of characters (`ropey::Rope` exposes exactly
the char-indexed splice operations used by the engine).  The syntax tree is
kept abstract: `apply_edit` re-parses the whole text after every splice
(`parser.parse(&text.to_string(), Some(&tree))`), so the tree after any
transaction is `parse` of the resulting rope, for an arbitrary parse
function.  Rust `Vec` stacks are modelled as Lean lists whose head is the
most recently pushed element.

The modules `edit.rs`, `selection.rs` and `screen.rs` of the repository are
not part of the sources; the definitions taken from them are modelled from
the specification and are marked `Modelled from the spec:` in their doc
comments.  Everything else is translated from `src/engine.rs`.
-/

namespace KiEditor

/-- A rope is a sequence of characters; indices are `CharIndex` values. -/
abbrev Rope := List Char

/-- The slice of a rope between char indices `a` (inclusive) and `b` (exclusive). -/
def slice (t : Rope) (a b : Nat) : Rope :=
  (t.drop a).take (b - a)

/-- An `Edit` is `(start, old, new)`; from `edit.rs` as described by the spec:
textual replacement of `old` by `new` at char index `start`. -/
structure Edit where
  start : Nat
  old : Rope
  new : Rope
deriving DecidableEq

/-- The end index of an edit (`edit.end() = start + old.len_chars()`). -/
def Edit.endIndex (e : Edit) : Nat := e.start + e.old.length

/-- The pure splice performed by `apply_edit` in engine.rs:
`text.remove(start..end); text.insert(start, new)`. -/
def Edit.splice (e : Edit) (text : Rope) : Rope :=
  text.take e.start ++ e.new ++ text.drop (e.start + e.old.length)

/-- `apply_edit` (engine.rs): splices the rope.  An out-of-range edit makes
`ropey` (and `CharIndex::to_byte`) panic, which aborts the process; this is
modelled as `none`.  Note the function performs no check that `old` matches
the slice it claims to replace. -/
def applyEdit (text : Rope) (e : Edit) : Option Rope :=
  if e.start + e.old.length ≤ text.length then some (e.splice text) else none

/-- `apply_edit_transaction` (free function in engine.rs): folds `apply_edit`
over the edits of the transaction, left to right. -/
def applyEdits (text : Rope) : List Edit → Option Rope
  | [] => some text
  | e :: es => (applyEdit text e).bind (fun t => applyEdits t es)

/-- Total left-to-right splice (equal to `applyEdits` whenever that succeeds). -/
def seqSplice (text : Rope) : List Edit → Rope
  | [] => text
  | e :: es => seqSplice (e.splice text) es

/-- The per-edit inversion built by `Editor::apply_edit_transaction`
(engine.rs): same `start`, `old` and `new` swapped. -/
def Edit.invert (e : Edit) : Edit :=
  { start := e.start, old := e.new, new := e.old }

/-- Shift an edit's coordinates right by `a`. -/
def Edit.shiftUp (a : Nat) (e : Edit) : Edit :=
  { e with start := e.start + a }

/-- Shift an edit's coordinates left by `a`. -/
def Edit.shiftDown (a : Nat) (e : Edit) : Edit :=
  { e with start := e.start - a }

/-- Modelled from the spec: the coordinate normalization performed by
`EditTransaction::from_action_groups` (file `edit.rs`, absent from the
sources).  The builder supplies action groups with coordinates in the
pre-image frame; the transaction derives the sorted list of edits, shifting
each subsequent edit by the net length delta of all preceding edits, so that
applying the edits left to right is equivalent to applying all groups
simultaneously.  `addNew` and `subOld` accumulate the inserted and removed
lengths of the preceding edits. -/
def normalizeAux (addNew subOld : Nat) : List Edit → List Edit
  | [] => []
  | e :: es =>
      { start := e.start + addNew - subOld, old := e.old, new := e.new } ::
        normalizeAux (addNew + e.new.length) (subOld + e.old.length) es

/-- Modelled from the spec: normalization of a pre-image edit list (sorted
input) to the left-to-right applicable list, see `normalizeAux`. -/
def normalize (es : List Edit) : List Edit := normalizeAux 0 0 es

/-- The inverse transaction the engine constructs in
`Editor::apply_edit_transaction`: each edit is mapped to the same start with
`old` and `new` swapped, each in its own action group, and the result is
passed through `EditTransaction::from_action_groups` (normalization). -/
def engineInvert (es : List Edit) : List Edit :=
  normalize (es.map Edit.invert)

/-- The edits of a pre-image list are sorted and pairwise disjoint: every
later edit starts at or after the end of every earlier one. -/
def EditsSorted : List Edit → Prop
  | [] => True
  | e :: es => (∀ p ∈ es, e.start + e.old.length ≤ p.start) ∧ EditsSorted es

instance instDecEditsSorted : (es : List Edit) → Decidable (EditsSorted es)
  | [] => .isTrue trivial
  | _ :: es =>
      have : Decidable (EditsSorted es) := instDecEditsSorted es
      inferInstanceAs (Decidable (_ ∧ _))

/-- Validity of a pre-image edit list with respect to a rope: each edit is in
bounds, its `old` text is exactly the slice of the rope it replaces, and the
list is sorted and pairwise disjoint. -/
def PreValid (t : Rope) : List Edit → Prop
  | [] => True
  | e :: es =>
      e.start + e.old.length ≤ t.length ∧
      slice t e.start (e.start + e.old.length) = e.old ∧
      (∀ p ∈ es, e.start + e.old.length ≤ p.start) ∧
      PreValid t es

instance instDecPreValid (t : Rope) : (es : List Edit) → Decidable (PreValid t es)
  | [] => .isTrue trivial
  | _ :: es =>
      have : Decidable (PreValid t es) := instDecPreValid t es
      inferInstanceAs (Decidable (_ ∧ _ ∧ _ ∧ _))

/-! Selection data model.  `selection.rs` is absent from the sources; the
types below follow the spec's data-model section and the uses visible in
`engine.rs`. -/

/-- Modelled from the spec: a half-open `CharIndex` range `[start, stop)`
(the Rust `Range<CharIndex>`; `stop` stands for the field named `end`). -/
structure CRange where
  start : Nat
  stop : Nat
deriving DecidableEq

/-- Modelled from the spec: the selection modes (tagged variants).
`SyntaxTreeMode` stands for the `SyntaxTree` variant. -/
inductive SelectionMode where
  | Custom
  | Character
  | Word
  | Line
  | Token
  | NamedNode
  | SiblingNode
  | ParentNode
  | Match (regex : String)
  | Inside (kind : Nat)
  | Bookmark
  | SyntaxTreeMode
deriving DecidableEq

/-- The contiguous selection modes, as enumerated by the spec's delete
description: Word, Line, Token, NamedNode, SiblingNode, Match, Character. -/
def SelectionMode.isContiguous : SelectionMode → Bool
  | .Word => true
  | .Line => true
  | .Token => true
  | .NamedNode => true
  | .SiblingNode => true
  | .Match _ => true
  | .Character => true
  | _ => false

/-- Modelled from the spec: a selection is a char range with optional node
identity and an optional private yank slot. -/
structure Selection where
  range : CRange
  node_id : Option Nat
  yanked_text : Option Rope
deriving DecidableEq

/-- Modelled from the spec: a selection set is a primary selection, ordered
secondary selections, and the governing mode. -/
structure SelectionSet where
  primary : Selection
  secondary : List Selection
  mode : SelectionMode
deriving DecidableEq

/-- `CursorDirection` (engine.rs): which end of the range the caret sits on. -/
inductive CursorDirection where
  | Start
  | End
deriving DecidableEq

/-- `Direction` (engine.rs). -/
inductive Direction where
  | Forward
  | Backward
  | Current
deriving DecidableEq

/-- Modelled from the spec: `Selection::to_char_index(cursor_direction)`
yields the end of the range the caret sits on, which is the insertion
anchor. -/
def Selection.toCharIndex (sel : Selection) : CursorDirection → Nat
  | .Start => sel.range.start
  | .End => sel.range.stop

/-- The selections of a set in primary-first order (`SelectionSet::map`
iterates the primary first, then the secondaries). -/
def SelectionSet.toList (ss : SelectionSet) : List Selection :=
  ss.primary :: ss.secondary

/-- Modelled from the spec: `SelectionSet::apply_mut` applies a function to
every selection of the set, primary and secondaries alike. -/
def SelectionSet.applyMut (f : Selection → Selection) (ss : SelectionSet) : SelectionSet :=
  { primary := f ss.primary, secondary := ss.secondary.map f, mode := ss.mode }

/-- Modelled from the spec: `SelectionSet::yank` stores the slice under each
selection into its `yanked_text` slot. -/
def SelectionSet.yank (text : Rope) (ss : SelectionSet) : SelectionSet :=
  ss.applyMut (fun sel =>
    { sel with yanked_text := some (slice text sel.range.start sel.range.stop) })

/-- `Jump` (engine.rs): a labelled candidate selection. -/
structure Jump where
  character : Char
  selection : Selection
deriving DecidableEq

/-- `Mode` (engine.rs): Normal, Insert, or Jump with its candidates. -/
inductive EditorMode where
  | Normal
  | Insert
  | Jump (jumps : List Jump)
deriving DecidableEq

/-- `EditHistoryKind` (engine.rs). -/
inductive EditHistoryKind where
  | Undo
  | Redo
  | NewEdit
deriving DecidableEq

/-! Edit transactions.  `edit.rs` is absent from the sources; `Action`,
`ActionGroup` and `EditTransaction` are modelled from the spec. -/

/-- Modelled from the spec: an action is either an `Edit` or a `Select`. -/
inductive Action where
  | edit (e : Edit)
  | select (sel : Selection)
deriving DecidableEq

/-- Shift an action's coordinates by the net delta `addNew - subOld` of the
preceding groups' edits (spec: actions within one group are simultaneous and
do not shift each other). -/
def Action.shiftedBy (addNew subOld : Nat) : Action → Action
  | .edit e => .edit { e with start := e.start + addNew - subOld }
  | .select sel =>
      .select { sel with range := ⟨sel.range.start + addNew - subOld,
                                   sel.range.stop + addNew - subOld⟩ }

/-- Total length inserted by the edits of one action group. -/
def groupNewLen (g : List Action) : Nat :=
  (g.map (fun a => match a with | .edit e => e.new.length | _ => 0)).sum

/-- Total length removed by the edits of one action group. -/
def groupOldLen (g : List Action) : Nat :=
  (g.map (fun a => match a with | .edit e => e.old.length | _ => 0)).sum

/-- Modelled from the spec: group-level coordinate normalization of
`EditTransaction::from_action_groups`; each subsequent group's actions are
shifted by the net length delta of all preceding groups' edits. -/
def normalizeGroups (addNew subOld : Nat) : List (List Action) → List (List Action)
  | [] => []
  | g :: gs =>
      g.map (Action.shiftedBy addNew subOld) ::
        normalizeGroups (addNew + groupNewLen g) (subOld + groupOldLen g) gs

/-- The edits of a group list, flattened in source order. -/
def groupsEdits (gs : List (List Action)) : List Edit :=
  gs.flatten.filterMap (fun a => match a with | .edit e => some e | _ => none)

/-- The select actions of a group list, flattened in source order. -/
def groupsSelections (gs : List (List Action)) : List Selection :=
  gs.flatten.filterMap (fun a => match a with | .select sel => some sel | _ => none)

/-- Modelled from the spec: an `EditTransaction` stores its pre-image
selection set and its action groups (already normalized at construction by
`from_action_groups`). -/
structure Txn where
  selection_set : SelectionSet
  action_groups : List (List Action)
deriving DecidableEq

/-- Modelled from the spec: `EditTransaction::from_action_groups` records the
pre-image selection set and normalizes the groups' coordinates. -/
def Txn.fromGroups (pre : SelectionSet) (gs : List (List Action)) : Txn :=
  { selection_set := pre, action_groups := normalizeGroups 0 0 gs }

/-- `EditTransaction::edits()`: the flattened edits. -/
def Txn.edits (t : Txn) : List Edit :=
  groupsEdits t.action_groups

/-- `EditTransaction::selections()`: the select actions, primary-first. -/
def Txn.selections (t : Txn) : List Selection :=
  groupsSelections t.action_groups

/-- The inverse transaction `Editor::apply_edit_transaction` constructs for a
transaction with the given edits: each edit with the same start and
`old`/`new` swapped, in its own action group, built by
`from_action_groups` with the current selection set as pre-image. -/
def invTxnFor (ss : SelectionSet) (es : List Edit) : Txn :=
  Txn.fromGroups ss (es.map (fun e => [Action.edit e.invert]))

/-! The editor. -/

/-- Modelled from the spec: the viewport geometry (`screen.rs` is absent). -/
structure Dimension where
  width : Nat
  height : Nat
deriving DecidableEq

/-- The `Editor` state (engine.rs), over an abstract tree type `τ`.
Vec stacks are lists whose head is the most recently pushed element. -/
structure Editor (τ : Type) where
  text : Rope
  mode : EditorMode
  selection_set : SelectionSet
  cursor_direction : CursorDirection
  tree : τ
  selection_history : List SelectionSet
  undo_edits : List Txn
  redo_edits : List Txn
  extended_selection_anchor : Option Nat
  scroll_offset : Nat
  dimension : Dimension

/-- The row of char index `i` (ropey `char_to_line`): the number of line
breaks before `i`. -/
def charToRow (t : Rope) (i : Nat) : Nat :=
  (t.take i).count '\n'

/-- The zero-based index of the last line of the buffer. -/
def lastLineIndex (t : Rope) : Nat :=
  charToRow t t.length

/-- `Editor::get_cursor_char_index`. -/
def Editor.getCursorCharIndex (s : Editor τ) : Nat :=
  s.selection_set.primary.toCharIndex s.cursor_direction

/-- `Editor::cursor_row` (engine.rs): the row of the primary cursor; the
`as u16` cast truncates it to 16 bits, so the row is taken modulo 65536. -/
def Editor.cursorRow (s : Editor τ) : Nat :=
  charToRow s.text s.getCursorCharIndex % 65536

/-- `Editor::align_cursor_to_center` (saturating u16 arithmetic is Nat
truncated subtraction). -/
def Editor.alignCursorToCenter (s : Editor τ) : Editor τ :=
  { s with scroll_offset := s.cursorRow - (s.dimension.height - 2) / 2 }

/-- `Editor::recalculate_scroll_offset`: recenter when the primary cursor is
out of view. -/
def Editor.recalculateScrollOffset (s : Editor τ) : Editor τ :=
  if s.dimension.height - 2 ≤ s.cursorRow - s.scroll_offset ∨
      s.cursorRow < s.scroll_offset
  then s.alignCursorToCenter
  else s

/-- `Editor::update_selection_set`: install the set, push it onto the
selection history, recalculate the scroll offset. -/
def Editor.updateSelectionSet (s : Editor τ) (ss : SelectionSet) : Editor τ :=
  Editor.recalculateScrollOffset
    { s with selection_set := ss, selection_history := ss :: s.selection_history }

/-- The loop of `Editor::select_backward` on the history stack (head = most
recently pushed): pop until an entry differs from the current set, install
it; if none differs the stack drains and the current set stays. -/
def selectBackwardAux (cur : SelectionSet) : List SelectionSet → List SelectionSet × SelectionSet
  | [] => ([], cur)
  | top :: rest => if top ≠ cur then (rest, top) else selectBackwardAux cur rest

/-- `Editor::select_backward`. -/
def Editor.selectBackward (s : Editor τ) : Editor τ :=
  let p := selectBackwardAux s.selection_set s.selection_history
  { s with selection_history := p.1, selection_set := p.2 }

/-- `Editor::apply_edit_transaction` (engine.rs, lines 372-420): build the
inverse transaction (same starts, `old`/`new` swapped, re-normalized by
`from_action_groups`), push it per the history kind, install the
transaction's selections, splice the rope edit by edit, re-parse, and
recalculate the scroll offset.  A failing splice is a panic, hence `none`. -/
def Editor.applyEditTransaction (parse : Rope → τ) (kind : EditHistoryKind)
    (txn : Txn) (s : Editor τ) : Option (Editor τ) :=
  let inv : Txn := invTxnFor s.selection_set txn.edits
  let s1 : Editor τ :=
    match kind with
    | .NewEdit => { s with redo_edits := [], undo_edits := inv :: s.undo_edits }
    | .Undo => { s with redo_edits := inv :: s.redo_edits }
    | .Redo => { s with undo_edits := inv :: s.undo_edits }
  let s2 : Editor τ :=
    match txn.selections with
    | [] => s1
    | h :: tail =>
        { s1 with selection_set :=
            { primary := h, secondary := tail, mode := s1.selection_set.mode } }
  match applyEdits s2.text txn.edits with
  | none => none
  | some t2 =>
      some (Editor.recalculateScrollOffset { s2 with text := t2, tree := parse t2 })

/-- `Editor::revert_change`: apply the stored transaction, then re-install
its recorded pre-image selection set. -/
def Editor.revertChange (parse : Rope → τ) (txn : Txn) (kind : EditHistoryKind)
    (s : Editor τ) : Option (Editor τ) :=
  (Editor.applyEditTransaction parse kind txn s).map
    (fun s2 => s2.updateSelectionSet txn.selection_set)

/-- `Editor::undo`: pop the undo stack and revert; empty stack is a no-op. -/
def Editor.undo (parse : Rope → τ) (s : Editor τ) : Option (Editor τ) :=
  match s.undo_edits with
  | [] => some s
  | e :: rest => Editor.revertChange parse e .Undo { s with undo_edits := rest }

/-- `Editor::redo`: pop the redo stack and revert; empty stack is a no-op. -/
def Editor.redo (parse : Rope → τ) (s : Editor τ) : Option (Editor τ) :=
  match s.redo_edits with
  | [] => some s
  | e :: rest => Editor.revertChange parse e .Redo { s with redo_edits := rest }

/-- `u` consecutive undo commands. -/
def undoN (parse : Rope → τ) : Nat → Editor τ → Option (Editor τ)
  | 0, s => some s
  | n + 1, s => (Editor.undo parse s).bind (undoN parse n)

/-- `u` consecutive redo commands. -/
def redoN (parse : Rope → τ) : Nat → Editor τ → Option (Editor τ)
  | 0, s => some s
  | n + 1, s => (Editor.redo parse s).bind (redoN parse n)

/-- `Editor::enter_insert_mode`: collapse every selection to an empty range
at its cursor-direction end, set the mode to Custom, clear the extension
anchor, enter Insert, reset the cursor direction. -/
def Editor.enterInsertMode (s : Editor τ) : Editor τ :=
  let ss := s.selection_set.applyMut (fun sel =>
    { sel with range := ⟨sel.toCharIndex s.cursor_direction,
                         sel.toCharIndex s.cursor_direction⟩ })
  { s with
    selection_set := { ss with mode := .Custom },
    extended_selection_anchor := none,
    mode := .Insert,
    cursor_direction := .Start }

/-- The `itertools` interleave: alternate the two lists starting with the
first; when one is exhausted, yield the rest of the other. -/
def interleave : List Char → List Char → List Char
  | [], ys => ys
  | x :: xs, [] => x :: xs
  | x :: xs, y :: ys => x :: y :: interleave xs ys

/-- The characters a to z. -/
def lowercaseChars : List Char :=
  (List.range 26).map (fun i => Char.ofNat ('a'.toNat + i))

/-- The characters A to Z. -/
def uppercaseChars : List Char :=
  (List.range 26).map (fun i => Char.ofNat ('A'.toNat + i))

/-- The characters 0 to 9. -/
def digitChars : List Char :=
  (List.range 10).map (fun i => Char.ofNat ('0'.toNat + i))

/-- The jump-label alphabet of `Editor::jump_from_selection`: a..z
interleaved with A..Z, interleaved with 0..9, then ',' and '.', with 'j' and
'J' excluded (reserved for chained jumps). -/
def jumpChars : List Char :=
  (interleave (interleave lowercaseChars uppercaseChars) digitChars
      ++ [',', '.']).filter (fun c => !(c == 'j' || c == 'J'))

/-- The candidate loop of `Editor::jump_from_selection`: step the current
mode once per label; record the label and the stepped selection; stop as
soon as the step yields the current selection again.  `step` stands for
`Selection::get_selection_` at the current rope, tree, mode, direction and
cursor direction. -/
def genJumps (step : Selection → Selection) : Selection → List Char → List Jump
  | _, [] => []
  | cur, c :: cs =>
      let next := step cur
      if next ≠ cur then ⟨c, next⟩ :: genJumps step next cs else []

/-- `Editor::jump_from_selection`: enter Jump mode with the generated
candidates. -/
def Editor.jumpFromSelection (step : Selection → Selection) (sel : Selection)
    (s : Editor τ) : Editor τ :=
  { s with mode := .Jump (genJumps step sel jumpChars) }

/-- The action group `Editor::paste` builds for one selection: insert the
yanked text at the cursor anchor and select the pasted range (Normal/Jump)
or an empty caret after it (Insert); a selection without yanked text
contributes no group. -/
def pasteGroup (mode : EditorMode) (cd : CursorDirection) (sel : Selection) :
    List (List Action) :=
  match sel.yanked_text with
  | none => []
  | some t =>
      let a := sel.toCharIndex cd
      [[Action.edit ⟨a, [], t⟩,
        Action.select
          { range :=
              match mode with
              | .Insert => ⟨a + t.length, a + t.length⟩
              | _ => ⟨a, a + t.length⟩,
            node_id := none,
            yanked_text := some t }]]

/-- `Editor::paste`: one transaction merging the per-selection groups
(`EditTransaction::merge` concatenates and re-normalizes, modelled by
`Txn.fromGroups` of the concatenation). -/
def Editor.paste (parse : Rope → τ) (s : Editor τ) : Option (Editor τ) :=
  Editor.applyEditTransaction parse .NewEdit
    (Txn.fromGroups s.selection_set
      ((s.selection_set.toList.map (pasteGroup s.mode s.cursor_direction)).flatten))
    s

/-- `Editor::yank_current_selection`. -/
def Editor.yankCurrentSelection (s : Editor τ) : Editor τ :=
  { s with selection_set := SelectionSet.yank s.text s.selection_set }

/-- Modelled from the spec: the range deleted by the kill command for one
selection.  For a contiguous mode the range extends over the gap up to the
next selection in the direction of travel; otherwise it is exactly the
selection's range.  (The implementing code, `SelectionSet::replace` in
`selection.rs` and the later `Kill` dispatch, is absent from the sources;
the repository's tests `delete_should_kill_if_possible_*` document it.) -/
def killRange (contiguous : Bool) (dir : Direction) (sel next : Selection) : CRange :=
  if contiguous then
    match dir with
    | .Backward => ⟨next.range.stop, sel.range.stop⟩
    | _ => ⟨sel.range.start, next.range.start⟩
  else sel.range

/-- The action group delete builds for one selection: delete the kill range
and leave an empty caret at its start (the `|edit| edit.start..edit.start`
closure of `delete_current_selection`). -/
def deleteGroup (text : Rope) (mode : SelectionMode) (dir : Direction)
    (step : Selection → Selection) (sel : Selection) : List Action :=
  let r := killRange mode.isContiguous dir sel (step sel)
  [Action.edit ⟨r.start, slice text r.start r.stop, []⟩,
   Action.select { range := ⟨r.start, r.start⟩, node_id := none,
                   yanked_text := sel.yanked_text }]

/-- `Editor::delete_current_selection`: yank first, then delete each
selection's kill range in one transaction. -/
def Editor.deleteCurrentSelection (parse : Rope → τ) (step : Selection → Selection)
    (dir : Direction) (s : Editor τ) : Option (Editor τ) :=
  let s1 := s.yankCurrentSelection
  Editor.applyEditTransaction parse .NewEdit
    (Txn.fromGroups s1.selection_set
      (s1.selection_set.toList.map (deleteGroup s1.text s1.selection_set.mode dir step)))
    s1

/-- Mouse events relevant to the engine. -/
inductive MouseKind where
  | ScrollUp
  | ScrollDown
  | DownLeft
  | Other
deriving DecidableEq

/-- The u16 saturation bound of the scroll offset. -/
def U16_MAX : Nat := 65535

/-- `Editor::apply_scroll`: a positive height saturating-adds one (u16),
a negative one saturating-subtracts one. -/
def Editor.applyScroll (s : Editor τ) (down : Bool) : Editor τ :=
  if down then { s with scroll_offset := min (s.scroll_offset + 1) U16_MAX }
  else { s with scroll_offset := s.scroll_offset - 1 }

/-- `Editor::handle_mouse_event`: scrolling adjusts the offset by one line;
the left-click arm is commented out in the source and the rest is ignored. -/
def Editor.handleMouseEvent (s : Editor τ) : MouseKind → Editor τ
  | .ScrollUp => s.applyScroll false
  | .ScrollDown => s.applyScroll true
  | _ => s

/-- Validity of an undo (or redo) stack with respect to the current rope:
each stored transaction's edits are the normalization of a pre-image edit
list valid for the rope obtained by replaying the previous entries. -/
def UndoValid (t : Rope) : List Txn → Prop
  | [] => True
  | txn :: rest =>
      ∃ pre, PreValid t pre ∧ txn.edits = normalize pre ∧
        UndoValid (seqSplice t (normalize pre)) rest

/-! Concrete sample states used by the witness theorems. -/

/-- A sample empty selection at the origin. -/
def sampleSelection : Selection := ⟨⟨0, 0⟩, none, none⟩

/-- A sample selection set with no secondaries. -/
def sampleSelSet : SelectionSet := ⟨sampleSelection, [], SelectionMode.Custom⟩

/-- A freshly constructed editor over rope trees (`parse` is the identity,
so the tree is the text itself), mirroring `Editor::new`. -/
def mkEditor (text : Rope) : Editor Rope :=
  { text := text, mode := .Normal, selection_set := sampleSelSet,
    cursor_direction := .Start, tree := text, selection_history := [],
    undo_edits := [], redo_edits := [], extended_selection_anchor := none,
    scroll_offset := 0, dimension := ⟨80, 24⟩ }

/-- A two-edit pre-image whose old and new texts differ in length. -/
def samplePre : List Edit :=
  [⟨0, ['a', 'b'], ['X', 'Y', 'Z']⟩, ⟨2, ['c', 'd'], ['P']⟩]

/-- The transaction built from `samplePre`. -/
def sampleTxn : Txn :=
  Txn.fromGroups sampleSelSet (samplePre.map (fun e => [Action.edit e]))

/-- A single-edit transaction deleting one character. -/
def sampleC2Txn : Txn :=
  Txn.fromGroups sampleSelSet [[Action.edit ⟨0, ['a'], ['x']⟩]]

/-- An editor whose undo stack holds one replayable transaction. -/
def sampleC2Editor : Editor Rope :=
  { mkEditor ['a', 'b'] with undo_edits := [sampleC2Txn] }

/-- An editor with an empty undo stack but a stale redo entry. -/
def sampleC2CxEditor : Editor Rope :=
  { mkEditor ['a'] with
    redo_edits := [Txn.fromGroups sampleSelSet [[Action.edit ⟨1, [], ['b']⟩]]] }

/-- A transaction whose single edit's `old` does not match the rope. -/
def sampleC3Txn : Txn :=
  Txn.fromGroups sampleSelSet [[Action.edit ⟨0, ['x'], ['q']⟩]]

/-- An editor in a contiguous mode (Token) whose primary selection covers
the first word of `"ab cd"`. -/
def sampleC4Editor : Editor Rope :=
  { mkEditor ['a', 'b', ' ', 'c', 'd'] with
    selection_set := ⟨⟨⟨0, 2⟩, none, none⟩, [], SelectionMode.Token⟩ }

/-- A mode step that always lands on the second word of `"ab cd"`. -/
def sampleC4Step : Selection → Selection :=
  fun _ => ⟨⟨3, 5⟩, none, none⟩

/-- An editor in Normal mode whose primary cursor sits at index 1 of
`"ab"` and carries the yanked text `"XY"`. -/
def sampleC6Editor : Editor Rope :=
  { mkEditor ['a', 'b'] with
    selection_set := ⟨⟨⟨1, 1⟩, none, some ['X', 'Y']⟩, [], SelectionMode.Custom⟩ }

/-- A 20-line buffer of bare newlines with a height-10 viewport. -/
def sampleC8Editor : Editor Rope :=
  { mkEditor (List.replicate 20 '\n') with dimension := ⟨80, 10⟩ }

/-- A selection set whose primary cursor sits on row 15. -/
def sampleC8SelSet : SelectionSet :=
  ⟨⟨⟨15, 15⟩, none, none⟩, [], SelectionMode.Custom⟩

/-- A buffer of 70000 newline characters (70001 rows, more rows than a u16
can hold) with a height-10 viewport. -/
def sampleC8BigEditor : Editor Rope :=
  { mkEditor (List.replicate 70000 '\n') with dimension := ⟨80, 10⟩ }

/-- A selection set whose primary cursor sits at char index 70000, on row
70000 of the big buffer. -/
def sampleC8BigSelSet : SelectionSet :=
  ⟨⟨⟨70000, 70000⟩, none, none⟩, [], SelectionMode.Custom⟩

/-! Basic lemmas about splices. -/

theorem length_take_le (t : Rope) (n : Nat) (h : n ≤ t.length) :
    (t.take n).length = n := by
  simp [List.length_take]; omega

theorem take_append_exact (A B : Rope) (n : Nat) (h : A.length = n) :
    (A ++ B).take n = A := by
  subst h; exact List.take_left A B

theorem drop_append_exact (A B : Rope) (n : Nat) (h : A.length = n) :
    (A ++ B).drop n = B := by
  subst h; exact List.drop_left A B

theorem take_append_slice (t : Rope) (a b : Nat) (h : a ≤ b) :
    t.take a ++ slice t a b = t.take b := by
  unfold slice
  rw [show b = a + (b - a) by omega, List.take_add]
  simp

theorem splice_shiftUp (A B : Rope) (e : Edit) :
    (Edit.shiftUp A.length e).splice (A ++ B) = A ++ e.splice B := by
  unfold Edit.splice Edit.shiftUp
  simp only
  rw [show e.start + A.length = A.length + e.start by omega, List.take_append,
    show A.length + e.start + e.old.length = A.length + (e.start + e.old.length) by omega,
    List.drop_append]
  simp

theorem applyEdit_shiftUp (A B : Rope) (e : Edit) :
    applyEdit (A ++ B) (Edit.shiftUp A.length e) = (applyEdit B e).map (fun t => A ++ t) := by
  unfold applyEdit
  by_cases hc : e.start + e.old.length ≤ B.length
  · rw [if_pos, if_pos hc]
    · simp [splice_shiftUp]
    · simp [Edit.shiftUp]; omega
  · rw [if_neg, if_neg hc]
    · simp
    · simp [Edit.shiftUp]; omega

theorem applyEdits_shiftUp (A : Rope) (es : List Edit) : ∀ (B : Rope),
    applyEdits (A ++ B) (es.map (Edit.shiftUp A.length)) =
      (applyEdits B es).map (fun t => A ++ t) := by
  induction es with
  | nil => intro B; simp [applyEdits]
  | cons e es ih =>
      intro B
      simp only [List.map_cons, applyEdits, applyEdit_shiftUp]
      cases applyEdit B e with
      | none => simp
      | some t => simp [ih t]

theorem splice_invert (t : Rope) (e : Edit) (hb : e.start + e.old.length ≤ t.length)
    (hm : slice t e.start (e.start + e.old.length) = e.old) :
    e.invert.splice (e.splice t) = t := by
  unfold Edit.invert Edit.splice
  simp only
  have hs : e.start ≤ t.length := by omega
  rw [show t.take e.start ++ e.new ++ t.drop (e.start + e.old.length)
        = t.take e.start ++ (e.new ++ t.drop (e.start + e.old.length)) by simp,
    take_append_exact _ _ _ (length_take_le t e.start hs),
    show t.take e.start ++ (e.new ++ t.drop (e.start + e.old.length))
        = (t.take e.start ++ e.new) ++ t.drop (e.start + e.old.length) by simp,
    drop_append_exact]
  · have key := take_append_slice t e.start (e.start + e.old.length) (by omega)
    rw [hm] at key
    rw [show t.take e.start ++ e.old ++ t.drop (e.start + e.old.length)
        = (t.take e.start ++ e.old) ++ t.drop (e.start + e.old.length) by simp,
      key]
    exact List.take_append_drop _ t
  · rw [List.length_append, length_take_le t e.start hs]

theorem applyEdit_invert (t : Rope) (e : Edit) (hb : e.start + e.old.length ≤ t.length)
    (hm : slice t e.start (e.start + e.old.length) = e.old) :
    applyEdit (e.splice t) e.invert = some t := by
  unfold applyEdit
  rw [if_pos]
  · rw [splice_invert t e hb hm]
  · unfold Edit.invert Edit.splice
    simp only [List.length_append]
    have := length_take_le t e.start (by omega)
    omega

theorem applyEdits_eq_some_seqSplice : ∀ (es : List Edit) (t u : Rope),
    applyEdits t es = some u → seqSplice t es = u := by
  intro es
  induction es with
  | nil => intro t u h; simpa [applyEdits, seqSplice] using h
  | cons e es ih =>
      intro t u h
      simp only [applyEdits] at h
      unfold applyEdit at h
      by_cases hc : e.start + e.old.length ≤ t.length
      · rw [if_pos hc] at h
        simp only [Option.some_bind] at h
        exact ih _ _ h
      · rw [if_neg hc] at h
        simp at h

/-! Arithmetic of the spec-modelled normalization. -/

theorem normalizeAux_shiftDown (c d : Nat) : ∀ (ps : List Edit) (a b a' b' : Nat),
    a + d + b' = b + c + a' →
    EditsSorted ps →
    (∀ p ∈ ps, b + c ≤ p.start + a ∧ d ≤ p.start) →
    (normalizeAux a b ps).map (Edit.shiftDown c) =
      normalizeAux a' b' (ps.map (Edit.shiftDown d)) := by
  intro ps
  induction ps with
  | nil => intro a b a' b' _ _ _; simp [normalizeAux]
  | cons e ps ih =>
      intro a b a' b' hinv hsorted hmem
      obtain ⟨he1, he2⟩ := hmem e (List.mem_cons_self e ps)
      simp only [normalizeAux, List.map_cons, List.cons.injEq]
      refine ⟨?_, ?_⟩
      · simp only [Edit.shiftDown, Edit.mk.injEq]
        exact ⟨by omega, by simp⟩
      · rw [ih (a + e.new.length) (b + e.old.length) (a' + e.new.length)
            (b' + e.old.length) (by omega) hsorted.2]
        · simp [Edit.shiftDown]
        · intro p hp
          have hps := hsorted.1 p hp
          obtain ⟨hp1, hp2⟩ := hmem p (List.mem_cons_of_mem e hp)
          constructor <;> omega

theorem normalizeAux_invert_cancel : ∀ (ps : List Edit) (α β γ δ : Nat),
    α + γ = β + δ →
    EditsSorted ps →
    (∀ p ∈ ps, β ≤ p.start + α) →
    normalizeAux γ δ ((normalizeAux α β ps).map Edit.invert) = ps.map Edit.invert := by
  intro ps
  induction ps with
  | nil => intro α β γ δ _ _ _; simp [normalizeAux]
  | cons e ps ih =>
      intro α β γ δ hinv hsorted hmem
      have he := hmem e (List.mem_cons_self e ps)
      simp only [normalizeAux, List.map_cons, Edit.invert, List.cons.injEq]
      refine ⟨?_, ?_⟩
      · simp only [Edit.mk.injEq]
        exact ⟨by omega, by simp⟩
      · rw [ih (α + e.new.length) (β + e.old.length) (γ + e.old.length)
            (δ + e.new.length) (by omega) hsorted.2]
        intro p hp
        have hps := hsorted.1 p hp
        have := hmem p (List.mem_cons_of_mem e hp)
        omega

theorem engineInvert_normalize (pre : List Edit) (hs : EditsSorted pre) :
    engineInvert (normalize pre) = pre.map Edit.invert := by
  unfold engineInvert normalize
  exact normalizeAux_invert_cancel pre 0 0 0 0 rfl hs (fun p _ => Nat.zero_le _)

theorem normalizeAux_start_le : ∀ (ps : List Edit) (a b m : Nat),
    EditsSorted ps → (∀ p ∈ ps, b + m ≤ p.start + a) →
    ∀ q ∈ normalizeAux a b ps, m ≤ q.start := by
  intro ps
  induction ps with
  | nil => intro a b m _ _ q hq; simp [normalizeAux] at hq
  | cons e ps ih =>
      intro a b m hsorted hmem q hq
      simp only [normalizeAux, List.mem_cons] at hq
      rcases hq with hq | hq
      · have := hmem e (List.mem_cons_self e ps)
        subst hq
        simp only
        omega
      · refine ih (a + e.new.length) (b + e.old.length) m hsorted.2 ?_ q hq
        intro p hp
        have := hmem p (List.mem_cons_of_mem e hp)
        have := hsorted.1 p hp
        have := hmem e (List.mem_cons_self e ps)
        omega

theorem shiftUp_shiftDown (c : Nat) (e : Edit) (h : c ≤ e.start) :
    Edit.shiftUp c (Edit.shiftDown c e) = e := by
  cases e with
  | mk s o n =>
    have h2 : c ≤ s := h
    simp only [Edit.shiftUp, Edit.shiftDown, Edit.mk.injEq]
    exact ⟨by omega, by simp⟩

theorem map_shiftUp_shiftDown (c : Nat) (es : List Edit) (h : ∀ e ∈ es, c ≤ e.start) :
    (es.map (Edit.shiftDown c)).map (Edit.shiftUp c) = es := by
  rw [List.map_map]
  conv_rhs => rw [← List.map_id es]
  refine List.map_congr_left ?_
  intro e he
  exact shiftUp_shiftDown c e (h e he)

theorem invert_shiftDown (c : Nat) (e : Edit) :
    Edit.invert (Edit.shiftDown c e) = Edit.shiftDown c (Edit.invert e) := rfl

/-! Validity lemmas. -/

theorem PreValid_sorted : ∀ (es : List Edit) (t : Rope), PreValid t es → EditsSorted es := by
  intro es
  induction es with
  | nil => intro t _; trivial
  | cons e ps ih =>
      intro t h
      exact ⟨h.2.2.1, ih t h.2.2.2⟩

theorem PreValid_shiftDown : ∀ (es : List Edit) (t : Rope) (m : Nat),
    (∀ p ∈ es, m ≤ p.start) → PreValid t es →
    PreValid (t.drop m) (es.map (Edit.shiftDown m)) := by
  intro es
  induction es with
  | nil => intro t m _ _; trivial
  | cons e ps ih =>
      intro t m hm h
      obtain ⟨hb, hslice, hsort, hv⟩ := h
      have hme := hm e (List.mem_cons_self e ps)
      refine ⟨?_, ?_, ?_, ?_⟩
      · simp only [Edit.shiftDown, List.length_drop]
        omega
      · simp only [Edit.shiftDown]
        unfold slice at hslice ⊢
        rw [List.drop_drop, show m + (e.start - m) = e.start by omega,
          show e.start - m + e.old.length - (e.start - m) = e.old.length by omega]
        rw [show e.start + e.old.length - e.start = e.old.length by omega] at hslice
        exact hslice
      · intro p hp
        obtain ⟨q, hq, rfl⟩ := List.mem_map.mp hp
        have := hsort q hq
        have := hm q (List.mem_cons_of_mem e hq)
        simp only [Edit.shiftDown]
        omega
      · exact ih t m (fun p hp => hm p (List.mem_cons_of_mem e hp)) hv

/-! The round trip: applying a normalized transaction and then the inverse
the engine constructs restores the rope. -/

theorem roundTripAux : ∀ (pre : List Edit) (t : Rope), PreValid t pre →
    ∃ T, applyEdits t (normalize pre) = some T ∧
      applyEdits T (pre.map Edit.invert) = some t
  | [], t, _ => ⟨t, by simp [normalize, normalizeAux, applyEdits], by simp [applyEdits]⟩
  | e :: ps, t, h => by
      obtain ⟨hb, hm, hsort, hv⟩ := h
      have hslen : e.start ≤ t.length := by omega
      -- the tail of the normalized list, reexpressed through the shifted tail
      have hsorted : EditsSorted ps := PreValid_sorted ps t hv
      have h1 : (normalizeAux e.new.length e.old.length ps).map
            (Edit.shiftDown (e.start + e.new.length)) =
          normalizeAux 0 0 (ps.map (Edit.shiftDown (e.start + e.old.length))) := by
        refine normalizeAux_shiftDown (e.start + e.new.length) (e.start + e.old.length)
          ps e.new.length e.old.length 0 0 (by omega) hsorted ?_
        intro p hp
        have := hsort p hp
        constructor <;> omega
      have h2 : ∀ q ∈ normalizeAux e.new.length e.old.length ps,
          e.start + e.new.length ≤ q.start := by
        refine normalizeAux_start_le ps e.new.length e.old.length
          (e.start + e.new.length) hsorted ?_
        intro p hp
        have := hsort p hp
        omega
      have h3 : normalizeAux e.new.length e.old.length ps =
          (normalizeAux 0 0 (ps.map (Edit.shiftDown (e.start + e.old.length)))).map
            (Edit.shiftUp (e.start + e.new.length)) := by
        rw [← h1]
        exact (map_shiftUp_shiftDown (e.start + e.new.length) _ h2).symm
      -- validity of the shifted tail on the suffix of the rope
      have hv' : PreValid (t.drop (e.start + e.old.length))
          (ps.map (Edit.shiftDown (e.start + e.old.length))) :=
        PreValid_shiftDown ps t (e.start + e.old.length) hsort hv
      obtain ⟨U, hU1, hU2⟩ :=
        roundTripAux (ps.map (Edit.shiftDown (e.start + e.old.length)))
          (t.drop (e.start + e.old.length)) hv'
      -- forward application
      have hA1len : (t.take e.start ++ e.new).length = e.start + e.new.length := by
        rw [List.length_append, length_take_le t e.start hslen]
      have hsplice : e.splice t =
          (t.take e.start ++ e.new) ++ t.drop (e.start + e.old.length) := by
        unfold Edit.splice; simp
      have hU1' : applyEdits (t.drop (e.start + e.old.length))
          (normalizeAux 0 0 (ps.map (Edit.shiftDown (e.start + e.old.length)))) = some U := hU1
      have hnorm : normalize (e :: ps) = e :: normalizeAux e.new.length e.old.length ps := by
        show normalizeAux 0 0 (e :: ps) = _
        cases e with
        | mk s o n => simp [normalizeAux]
      have hfwd : applyEdits t (normalize (e :: ps)) =
          some ((t.take e.start ++ e.new) ++ U) := by
        rw [hnorm]
        simp only [applyEdits]
        unfold applyEdit
        rw [if_pos hb]
        simp only [Option.some_bind]
        rw [h3, hsplice, ← hA1len, applyEdits_shiftUp, hU1']
        rfl
      refine ⟨(t.take e.start ++ e.new) ++ U, hfwd, ?_⟩
      -- inverse application
      simp only [List.map_cons, applyEdits]
      have hTlen : ((t.take e.start ++ e.new) ++ U).length
          = e.start + e.new.length + U.length := by
        rw [List.length_append, hA1len]
      have hinvstep : applyEdit ((t.take e.start ++ e.new) ++ U) e.invert
          = some (t.take (e.start + e.old.length) ++ U) := by
        unfold applyEdit Edit.invert Edit.splice
        simp only
        rw [if_pos (by rw [hTlen]; omega)]
        rw [show (t.take e.start ++ e.new) ++ U = t.take e.start ++ (e.new ++ U) by simp,
          take_append_exact _ _ _ (length_take_le t e.start hslen),
          show t.take e.start ++ (e.new ++ U) = (t.take e.start ++ e.new) ++ U by simp,
          drop_append_exact _ _ _ hA1len,
          show t.take e.start ++ e.old ++ U = (t.take e.start ++ e.old) ++ U by simp]
        have key := take_append_slice t e.start (e.start + e.old.length) (by omega)
        rw [hm] at key
        rw [key]
      rw [hinvstep]
      simp only [Option.some_bind]
      have hmapinv : ps.map Edit.invert =
          ((ps.map (Edit.shiftDown (e.start + e.old.length))).map Edit.invert).map
            (Edit.shiftUp (e.start + e.old.length)) := by
        rw [List.map_map, List.map_map]
        refine List.map_congr_left ?_
        intro p hp
        have hps := hsort p hp
        show Edit.invert p = Edit.shiftUp (e.start + e.old.length)
          (Edit.invert (Edit.shiftDown (e.start + e.old.length) p))
        have hple : e.start + e.old.length ≤ (Edit.invert p).start := by
          show e.start + e.old.length ≤ p.start
          omega
        rw [invert_shiftDown, shiftUp_shiftDown _ _ hple]
      have hA2len : (t.take (e.start + e.old.length)).length = e.start + e.old.length :=
        length_take_le t _ hb
      have happ := applyEdits_shiftUp (t.take (e.start + e.old.length))
        ((ps.map (Edit.shiftDown (e.start + e.old.length))).map Edit.invert) U
      rw [hA2len] at happ
      rw [hmapinv, happ, hU2]
      simp
termination_by pre => pre.length
decreasing_by simp [List.length_map]

theorem applyEdits_normalize_eq (pre : List Edit) (t : Rope) (h : PreValid t pre) :
    applyEdits t (normalize pre) = some (seqSplice t (normalize pre)) := by
  obtain ⟨T, h1, _⟩ := roundTripAux pre t h
  rw [h1, applyEdits_eq_some_seqSplice (normalize pre) t T h1]

theorem applyEdits_engineInvert (pre : List Edit) (t : Rope) (h : PreValid t pre) :
    applyEdits (seqSplice t (normalize pre)) (engineInvert (normalize pre)) = some t := by
  obtain ⟨T, h1, h2⟩ := roundTripAux pre t h
  rw [applyEdits_eq_some_seqSplice (normalize pre) t T h1,
    engineInvert_normalize pre (PreValid_sorted pre t h)]
  exact h2

/-! Plumbing: the engine-built inverse transaction. -/

theorem groupsEdits_single : ∀ (es : List Edit) (a b : Nat),
    groupsEdits (normalizeGroups a b (es.map (fun e => [Action.edit e]))) =
      normalizeAux a b es := by
  intro es
  induction es with
  | nil => intro a b; simp [groupsEdits, normalizeGroups, normalizeAux]
  | cons e es ih =>
      intro a b
      simp only [List.map_cons, normalizeGroups, groupsEdits, List.flatten_cons,
        List.filterMap_append, List.map_cons, List.map_nil, List.filterMap_cons,
        List.filterMap_nil, Action.shiftedBy, normalizeAux,
        groupNewLen, groupOldLen, List.sum_cons, List.sum_nil,
        Nat.add_zero, List.singleton_append]
      rw [List.cons.injEq]
      refine ⟨rfl, ?_⟩
      have := ih (a + e.new.length) (b + e.old.length)
      simpa [groupsEdits] using this

theorem groupsSelections_single : ∀ (es : List Edit) (a b : Nat),
    groupsSelections (normalizeGroups a b (es.map (fun e => [Action.edit e]))) = [] := by
  intro es
  induction es with
  | nil => intro a b; simp [groupsSelections, normalizeGroups]
  | cons e es ih =>
      intro a b
      simp only [List.map_cons, normalizeGroups, groupsSelections, List.flatten_cons,
        List.filterMap_append, List.map_cons, List.map_nil, List.filterMap_cons,
        List.filterMap_nil, Action.shiftedBy]
      have := ih (a + groupNewLen [Action.edit e]) (b + groupOldLen [Action.edit e])
      simpa [groupsSelections] using this

theorem invTxnFor_edits (ss : SelectionSet) (es : List Edit) :
    (invTxnFor ss es).edits = engineInvert es := by
  unfold invTxnFor Txn.fromGroups Txn.edits engineInvert normalize
  show groupsEdits (normalizeGroups 0 0 (es.map (fun e => [Action.edit e.invert]))) = _
  rw [show es.map (fun e => [Action.edit e.invert])
      = (es.map Edit.invert).map (fun e => [Action.edit e]) by rw [List.map_map]; rfl]
  exact groupsEdits_single (es.map Edit.invert) 0 0

theorem invTxnFor_selections (ss : SelectionSet) (es : List Edit) :
    (invTxnFor ss es).selections = [] := by
  unfold invTxnFor Txn.fromGroups Txn.selections
  show groupsSelections (normalizeGroups 0 0 (es.map (fun e => [Action.edit e.invert]))) = _
  rw [show es.map (fun e => [Action.edit e.invert])
      = (es.map Edit.invert).map (fun e => [Action.edit e]) by rw [List.map_map]; rfl]
  exact groupsSelections_single (es.map Edit.invert) 0 0

theorem invTxnFor_selection_set (ss : SelectionSet) (es : List Edit) :
    (invTxnFor ss es).selection_set = ss := rfl

/-! Plumbing: field preservation of the scroll and selection updates. -/

theorem recalc_text (s : Editor τ) : s.recalculateScrollOffset.text = s.text := by
  unfold Editor.recalculateScrollOffset Editor.alignCursorToCenter
  split <;> rfl

theorem recalc_tree (s : Editor τ) : s.recalculateScrollOffset.tree = s.tree := by
  unfold Editor.recalculateScrollOffset Editor.alignCursorToCenter
  split <;> rfl

theorem recalc_selection_set (s : Editor τ) :
    s.recalculateScrollOffset.selection_set = s.selection_set := by
  unfold Editor.recalculateScrollOffset Editor.alignCursorToCenter
  split <;> rfl

theorem recalc_undo_edits (s : Editor τ) :
    s.recalculateScrollOffset.undo_edits = s.undo_edits := by
  unfold Editor.recalculateScrollOffset Editor.alignCursorToCenter
  split <;> rfl

theorem recalc_redo_edits (s : Editor τ) :
    s.recalculateScrollOffset.redo_edits = s.redo_edits := by
  unfold Editor.recalculateScrollOffset Editor.alignCursorToCenter
  split <;> rfl

theorem updateSS_selection_set (s : Editor τ) (ss : SelectionSet) :
    (s.updateSelectionSet ss).selection_set = ss := by
  unfold Editor.updateSelectionSet
  rw [recalc_selection_set]

theorem updateSS_text (s : Editor τ) (ss : SelectionSet) :
    (s.updateSelectionSet ss).text = s.text := by
  unfold Editor.updateSelectionSet
  rw [recalc_text]

theorem updateSS_tree (s : Editor τ) (ss : SelectionSet) :
    (s.updateSelectionSet ss).tree = s.tree := by
  unfold Editor.updateSelectionSet
  rw [recalc_tree]

theorem updateSS_undo_edits (s : Editor τ) (ss : SelectionSet) :
    (s.updateSelectionSet ss).undo_edits = s.undo_edits := by
  unfold Editor.updateSelectionSet
  rw [recalc_undo_edits]

theorem updateSS_redo_edits (s : Editor τ) (ss : SelectionSet) :
    (s.updateSelectionSet ss).redo_edits = s.redo_edits := by
  unfold Editor.updateSelectionSet
  rw [recalc_redo_edits]

/-! Plumbing: what one application of a transaction does to the state. -/

theorem applyTxn_characterization (parse : Rope → τ) (kind : EditHistoryKind)
    (txn : Txn) (s : Editor τ) (t2 : Rope)
    (hap : applyEdits s.text txn.edits = some t2) :
    ∃ s3, Editor.applyEditTransaction parse kind txn s = some s3 ∧
      s3.text = t2 ∧ s3.tree = parse t2 ∧
      s3.undo_edits = (match kind with
        | .NewEdit => invTxnFor s.selection_set txn.edits :: s.undo_edits
        | .Undo => s.undo_edits
        | .Redo => invTxnFor s.selection_set txn.edits :: s.undo_edits) ∧
      s3.redo_edits = (match kind with
        | .NewEdit => []
        | .Undo => invTxnFor s.selection_set txn.edits :: s.redo_edits
        | .Redo => s.redo_edits) ∧
      s3.selection_set = (match txn.selections with
        | [] => s.selection_set
        | h :: tail => { primary := h, secondary := tail, mode := s.selection_set.mode }) := by
  unfold Editor.applyEditTransaction
  cases kind <;> cases hsel : txn.selections <;>
    simp only [hsel, hap] <;>
    exact ⟨_, rfl, by rw [recalc_text], by rw [recalc_tree], by rw [recalc_undo_edits],
      by rw [recalc_redo_edits], by rw [recalc_selection_set]⟩

theorem revertChange_characterization (parse : Rope → τ) (kind : EditHistoryKind)
    (txn : Txn) (s : Editor τ) (t2 : Rope)
    (hap : applyEdits s.text txn.edits = some t2) :
    ∃ s4, Editor.revertChange parse txn kind s = some s4 ∧
      s4.text = t2 ∧ s4.tree = parse t2 ∧ s4.selection_set = txn.selection_set ∧
      s4.undo_edits = (match kind with
        | .NewEdit => invTxnFor s.selection_set txn.edits :: s.undo_edits
        | .Undo => s.undo_edits
        | .Redo => invTxnFor s.selection_set txn.edits :: s.undo_edits) ∧
      s4.redo_edits = (match kind with
        | .NewEdit => []
        | .Undo => invTxnFor s.selection_set txn.edits :: s.redo_edits
        | .Redo => s.redo_edits) := by
  obtain ⟨s3, h3, htext, htree, hundo, hredo, _⟩ :=
    applyTxn_characterization parse kind txn s t2 hap
  refine ⟨s3.updateSelectionSet txn.selection_set, ?_, ?_, ?_, ?_, ?_, ?_⟩
  · unfold Editor.revertChange
    rw [h3]
    rfl
  · rw [updateSS_text, htext]
  · rw [updateSS_tree, htree]
  · rw [updateSS_selection_set]
  · rw [updateSS_undo_edits, hundo]
  · rw [updateSS_redo_edits, hredo]

/-! Claim C1. -/

/-- C1: for every edit transaction built from a valid pre-image edit list,
applying the transaction to (rope, tree) and then applying the inverse
transaction the engine constructs for it (each edit with the same start but
`old` and `new` swapped, re-normalized) — which is exactly the transaction
pushed on the undo stack — restores the original rope, the original
selection set (hence all selection ranges), and the original tree modulo
re-parse.  This holds in particular for transactions with several edits
whose old and new texts differ in length (see the witness). -/
theorem claim_c1_transaction_inversion (τ : Type) (parse : Rope → τ)
    (s : Editor τ) (pre : List Edit) (txn : Txn)
    (hv : PreValid s.text pre) (he : txn.edits = normalize pre)
    (ht : s.tree = parse s.text) :
    ∃ s1 s2,
      Editor.applyEditTransaction parse .NewEdit txn s = some s1 ∧
      s1.undo_edits.head? = some (invTxnFor s.selection_set txn.edits) ∧
      Editor.revertChange parse (invTxnFor s.selection_set txn.edits) .Undo s1 = some s2 ∧
      s2.text = s.text ∧ s2.selection_set = s.selection_set ∧
      s2.tree = parse s.text ∧ s2.tree = s.tree := by
  have hap : applyEdits s.text txn.edits = some (seqSplice s.text (normalize pre)) := by
    rw [he]
    exact applyEdits_normalize_eq pre s.text hv
  obtain ⟨s1, h1, htext1, _, hundo1, _, _⟩ :=
    applyTxn_characterization parse .NewEdit txn s _ hap
  have hinvedits : (invTxnFor s.selection_set txn.edits).edits
      = engineInvert (normalize pre) := by
    rw [invTxnFor_edits, he]
  have hap2 : applyEdits s1.text (invTxnFor s.selection_set txn.edits).edits
      = some s.text := by
    rw [htext1, hinvedits]
    exact applyEdits_engineInvert pre s.text hv
  obtain ⟨s2, h2, htext2, htree2, hsel2, _, _⟩ :=
    revertChange_characterization parse .Undo (invTxnFor s.selection_set txn.edits)
      s1 _ hap2
  refine ⟨s1, s2, h1, ?_, h2, htext2, ?_, by rw [htree2], by rw [htree2, ht]⟩
  · rw [hundo1]
    rfl
  · rw [hsel2, invTxnFor_selection_set]

/-- Witness for C1: a concrete editor over `"abcdef"` and a transaction of
two edits whose lengths change (replace `"ab"` by `"XYZ"` and `"cd"` by
`"P"`). -/
theorem claim_c1_witness :
    ∃ s1 s2,
      Editor.applyEditTransaction (fun t => t) .NewEdit sampleTxn
        (mkEditor ['a', 'b', 'c', 'd', 'e', 'f']) = some s1 ∧
      s1.undo_edits.head? = some (invTxnFor
        (mkEditor ['a', 'b', 'c', 'd', 'e', 'f']).selection_set sampleTxn.edits) ∧
      Editor.revertChange (fun t => t)
        (invTxnFor (mkEditor ['a', 'b', 'c', 'd', 'e', 'f']).selection_set
          sampleTxn.edits) .Undo s1 = some s2 ∧
      s2.text = (mkEditor ['a', 'b', 'c', 'd', 'e', 'f']).text ∧
      s2.selection_set = (mkEditor ['a', 'b', 'c', 'd', 'e', 'f']).selection_set ∧
      s2.tree = (fun t => t) (mkEditor ['a', 'b', 'c', 'd', 'e', 'f']).text ∧
      s2.tree = (mkEditor ['a', 'b', 'c', 'd', 'e', 'f']).tree :=
  claim_c1_transaction_inversion Rope (fun t => t)
    (mkEditor ['a', 'b', 'c', 'd', 'e', 'f']) samplePre sampleTxn
    (by decide) (by decide) rfl

/-! Claim C2. -/

theorem redoN_succ_right (parse : Rope → τ) : ∀ (n : Nat) (x : Editor τ),
    redoN parse (n + 1) x = (redoN parse n x).bind (Editor.redo parse) := by
  intro n
  induction n with
  | zero =>
      intro x
      show (Editor.redo parse x).bind (redoN parse 0) = (some x).bind (Editor.redo parse)
      cases hx : Editor.redo parse x <;> simp [redoN, hx]
  | succ m ih =>
      intro x
      show (Editor.redo parse x).bind (redoN parse (m + 1)) = _
      cases hx : Editor.redo parse x with
      | none =>
          show _ = ((Editor.redo parse x).bind (redoN parse m)).bind (Editor.redo parse)
          rw [hx]
          simp
      | some y =>
          show _ = ((Editor.redo parse x).bind (redoN parse m)).bind (Editor.redo parse)
          rw [hx]
          simp only [Option.some_bind]
          exact ih y

theorem undoRedoAux (parse : Rope → τ) : ∀ (u : Nat) (s : Editor τ),
    UndoValid s.text s.undo_edits → s.tree = parse s.text →
    u ≤ s.undo_edits.length →
    ∃ s2, (undoN parse u s).bind (redoN parse u) = some s2 ∧
      s2.text = s.text ∧ s2.tree = s.tree ∧
      s2.selection_set = s.selection_set ∧ s2.redo_edits = s.redo_edits := by
  intro u
  induction u with
  | zero =>
      intro s _ _ _
      exact ⟨s, by simp [undoN, redoN], rfl, rfl, rfl, rfl⟩
  | succ n ih =>
      intro s hv ht hlen
      cases hstack : s.undo_edits with
      | nil =>
          rw [hstack] at hlen
          simp at hlen
      | cons T rest =>
        rw [hstack] at hv
        obtain ⟨pre, hpre, hTe, hrest⟩ := hv
        have hap1 : applyEdits ({ s with undo_edits := rest } : Editor τ).text T.edits
            = some (seqSplice s.text (normalize pre)) := by
          show applyEdits s.text T.edits = _
          rw [hTe]
          exact applyEdits_normalize_eq pre s.text hpre
        obtain ⟨s1, h1, htext1, htree1, hsel1, hundo1, hredo1⟩ :=
          revertChange_characterization parse .Undo T { s with undo_edits := rest } _ hap1
        have hundoeq : Editor.undo parse s = some s1 := by
          unfold Editor.undo
          rw [hstack]
          exact h1
        have hundo1' : s1.undo_edits = rest := by rw [hundo1]
        have hvalid1 : UndoValid s1.text s1.undo_edits := by
          rw [htext1, hundo1']
          exact hrest
        have htree1' : s1.tree = parse s1.text := by rw [htree1, htext1]
        have hlen1 : n ≤ s1.undo_edits.length := by
          rw [hundo1']
          rw [hstack] at hlen
          simp only [List.length_cons] at hlen
          omega
        obtain ⟨s2, h2, htext2, htree2, hsel2, hredo2⟩ := ih s1 hvalid1 htree1' hlen1
        have hredo2' : s2.redo_edits
            = invTxnFor s.selection_set T.edits :: s.redo_edits := by
          rw [hredo2, hredo1]
        have hinvedits : (invTxnFor s.selection_set T.edits).edits
            = engineInvert (normalize pre) := by
          rw [invTxnFor_edits, hTe]
        have hap2 : applyEdits
            ({ s2 with redo_edits := s.redo_edits } : Editor τ).text
            (invTxnFor s.selection_set T.edits).edits = some s.text := by
          show applyEdits s2.text _ = _
          rw [htext2, htext1, hinvedits]
          exact applyEdits_engineInvert pre s.text hpre
        obtain ⟨s3, h3, htext3, htree3, hsel3, _, hredo3⟩ :=
          revertChange_characterization parse .Redo (invTxnFor s.selection_set T.edits)
            { s2 with redo_edits := s.redo_edits } _ hap2
        have hredoeq : Editor.redo parse s2 = some s3 := by
          unfold Editor.redo
          rw [hredo2']
          exact h3
        refine ⟨s3, ?_, ?_, ?_, ?_, ?_⟩
        · have hcomp : undoN parse (n + 1) s = undoN parse n s1 := by
            show (Editor.undo parse s).bind (undoN parse n) = _
            rw [hundoeq]
            rfl
          rw [hcomp]
          have hsplit : (undoN parse n s1).bind (redoN parse (n + 1))
              = ((undoN parse n s1).bind (redoN parse n)).bind (Editor.redo parse) := by
            rw [Option.bind_assoc]
            cases undoN parse n s1 with
            | none => simp
            | some y => simp only [Option.some_bind]; exact redoN_succ_right parse n y
          rw [hsplit, h2]
          simp only [Option.some_bind]
          exact hredoeq
        · rw [htext3]
        · rw [htree3, ht]
        · rw [hsel3, invTxnFor_selection_set]
        · rw [hredo3]

/-- C2 (amended): for every editor state whose tree is the parse of its rope
and whose undo-stack entries replay validly, and every `u` not exceeding the
depth of the undo stack, performing `u` undo commands followed by `u` redo
commands leaves the rope, the tree, and the selection set equal to what they
were just before the first undo. -/
theorem claim_c2_undo_redo_symmetry (τ : Type) (parse : Rope → τ) (u : Nat)
    (s : Editor τ) (hv : UndoValid s.text s.undo_edits)
    (ht : s.tree = parse s.text) (hu : u ≤ s.undo_edits.length) :
    ∃ s2, (undoN parse u s).bind (redoN parse u) = some s2 ∧
      s2.text = s.text ∧ s2.tree = s.tree ∧ s2.selection_set = s.selection_set := by
  obtain ⟨s2, h, h1, h2, h3, _⟩ := undoRedoAux parse u s hv ht hu
  exact ⟨s2, h, h1, h2, h3⟩

/-- Witness for C2: one undo and one redo on a concrete editor with a
one-entry undo stack. -/
theorem claim_c2_witness :
    ∃ s2, (undoN (fun t => t) 1 sampleC2Editor).bind (redoN (fun t => t) 1) = some s2 ∧
      s2.text = sampleC2Editor.text ∧ s2.tree = sampleC2Editor.tree ∧
      s2.selection_set = sampleC2Editor.selection_set :=
  claim_c2_undo_redo_symmetry Rope (fun t => t) 1 sampleC2Editor
    ⟨[⟨0, ['a'], ['x']⟩], by decide, by decide, trivial⟩ rfl (by decide)

/-- Counterexample to C2 as stated: on an editor whose undo stack is empty
but whose redo stack holds a stale entry, one undo (a no-op) followed by one
redo applies the stale entry and changes the rope, so the state after `u`
undos and `u` redos is not the pre-undo state. -/
theorem claim_c2_counterexample :
    ((undoN (fun t => t) 1 sampleC2CxEditor).bind
        (redoN (fun t => t) 1)).map Editor.text = some ['a', 'b'] ∧
    sampleC2CxEditor.text = ['a'] ∧ (['a', 'b'] : Rope) ≠ ['a'] := by
  refine ⟨by decide, rfl, by decide⟩

/-! Claim C3. -/

/-- C3 (amended): `apply_edit` performs no validation of `old` against the
rope: any edit whose end stays within the rope is applied as a blind splice,
whether or not `old` matches the slice it claims to replace; only an edit
reaching past the rope end aborts (a panic, modelled as `none`), and a
failing splice aborts the whole command. -/
theorem claim_c3_no_validation (τ : Type) (parse : Rope → τ)
    (kind : EditHistoryKind) (txn : Txn) (s : Editor τ) (t : Rope) (e : Edit) :
    (e.start + e.old.length ≤ t.length → applyEdit t e = some (e.splice t)) ∧
    (t.length < e.start + e.old.length → applyEdit t e = none) ∧
    (applyEdits s.text txn.edits = none →
      Editor.applyEditTransaction parse kind txn s = none) := by
  refine ⟨?_, ?_, ?_⟩
  · intro h
    unfold applyEdit
    rw [if_pos h]
  · intro h
    unfold applyEdit
    rw [if_neg (by omega)]
  · intro h
    unfold Editor.applyEditTransaction
    cases kind <;> cases hsel : txn.selections <;> simp [hsel, h]

/-- Witness for C3 (amended): a mismatched edit on `"ab"` is spliced anyway;
an out-of-range edit yields `none`. -/
theorem claim_c3_witness :
    applyEdit ['a', 'b'] ⟨0, ['x'], ['q']⟩ = some (Edit.splice ⟨0, ['x'], ['q']⟩ ['a', 'b']) ∧
    applyEdit ['a'] ⟨2, ['a'], []⟩ = none :=
  ⟨(claim_c3_no_validation Rope (fun t => t) .NewEdit sampleC3Txn
      (mkEditor ['a', 'b']) ['a', 'b'] ⟨0, ['x'], ['q']⟩).1 (by decide),
   (claim_c3_no_validation Rope (fun t => t) .NewEdit sampleC3Txn
      (mkEditor ['a']) ['a'] ⟨2, ['a'], []⟩).2.1 (by decide)⟩

/-- Counterexample to C3 as stated: a transaction whose edit's `old` (`"x"`)
does not match the slice of the rope (`"a"`) does not fail — the command
succeeds and the rope changes from `"ab"` to `"qb"`. -/
theorem claim_c3_counterexample :
    slice (mkEditor ['a', 'b']).text 0 1 ≠ ['x'] ∧
    (Editor.applyEditTransaction (fun t => t) .NewEdit sampleC3Txn
        (mkEditor ['a', 'b'])).map Editor.text = some ['q', 'b'] ∧
    (['q', 'b'] : Rope) ≠ ['a', 'b'] := by
  refine ⟨by decide, by decide, by decide⟩

/-! Plumbing for single-group transactions. -/

theorem shiftedBy_zero (a : Action) : Action.shiftedBy 0 0 a = a := by
  cases a with
  | edit e => cases e; simp [Action.shiftedBy]
  | select sel =>
      cases sel with
      | mk r ni yt => cases r; simp [Action.shiftedBy]

theorem map_shiftedBy_zero (g : List Action) : g.map (Action.shiftedBy 0 0) = g := by
  conv_rhs => rw [← List.map_id g]
  exact List.map_congr_left (fun a _ => shiftedBy_zero a)

theorem fromGroups_single (pre : SelectionSet) (acts : List Action) :
    (Txn.fromGroups pre [acts]).action_groups = [acts] := by
  unfold Txn.fromGroups normalizeGroups
  simp [map_shiftedBy_zero, normalizeGroups]

theorem length_slice (t : Rope) (a b : Nat) (hab : a ≤ b) (hb : b ≤ t.length) :
    (slice t a b).length = b - a := by
  simp only [slice, List.length_take, List.length_drop]
  omega

theorem slice_middle (A B C : Rope) :
    slice (A ++ B ++ C) A.length (A.length + B.length) = B := by
  unfold slice
  rw [show A ++ B ++ C = A ++ (B ++ C) by simp,
    drop_append_exact A (B ++ C) A.length rfl,
    show A.length + B.length - A.length = B.length by omega,
    take_append_exact B C B.length rfl]

/-! Claim C4. -/

/-- C4: the delete command first yanks each selection's text; for a
contiguous mode (Word, Line, Token, NamedNode, SiblingNode, Match,
Character) the deleted range is extended to cover the gap up to the next
selection in the direction of travel, while for a non-contiguous mode it is
exactly the selection's range; and the per-selection edit removes exactly
the kill-range slice.  The last part runs a single-cursor contiguous delete
end to end: the rope loses `[selection.start, next.start)`. -/
theorem claim_c4_delete_kill (τ : Type) (parse : Rope → τ)
    (step : Selection → Selection) (dir : Direction) (s : Editor τ)
    (mode : SelectionMode) (sel next : Selection) (t : Rope) :
    (s.yankCurrentSelection.selection_set.toList = s.selection_set.toList.map
      (fun x => { x with yanked_text := some (slice s.text x.range.start x.range.stop) })) ∧
    (mode.isContiguous = true →
      killRange mode.isContiguous .Forward sel next = ⟨sel.range.start, next.range.start⟩ ∧
      killRange mode.isContiguous .Backward sel next = ⟨next.range.stop, sel.range.stop⟩) ∧
    (mode.isContiguous = false → killRange mode.isContiguous dir sel next = sel.range) ∧
    ((deleteGroup t mode dir step sel).head? = some (Action.edit
      ⟨(killRange mode.isContiguous dir sel (step sel)).start,
       slice t (killRange mode.isContiguous dir sel (step sel)).start
         (killRange mode.isContiguous dir sel (step sel)).stop, []⟩)) ∧
    (∀ (psel : Selection) (pmode : SelectionMode),
      s.selection_set = ⟨psel, [], pmode⟩ →
      pmode.isContiguous = true →
      ∀ (nstart : Nat),
      (step { psel with
          yanked_text := some (slice s.text psel.range.start psel.range.stop) }).range.start
        = nstart →
      psel.range.start ≤ nstart →
      nstart ≤ s.text.length →
      (Editor.deleteCurrentSelection parse step .Forward s).map Editor.text =
        some (s.text.take psel.range.start ++ s.text.drop nstart)) := by
  refine ⟨?_, ?_, ?_, ?_, ?_⟩
  · unfold Editor.yankCurrentSelection SelectionSet.yank SelectionSet.applyMut
      SelectionSet.toList
    simp
  · intro h
    unfold killRange
    rw [h]
    exact ⟨rfl, rfl⟩
  · intro h
    unfold killRange
    rw [h]
    simp
  · unfold deleteGroup
    rfl
  · intro psel pmode hss hmode nstart hstep hord hbound
    set ysel : Selection :=
      { psel with yanked_text := some (slice s.text psel.range.start psel.range.stop) }
      with hysel
    have hs1 : s.yankCurrentSelection.selection_set = ⟨ysel, [], pmode⟩ := by
      unfold Editor.yankCurrentSelection SelectionSet.yank SelectionSet.applyMut
      rw [hss]
      rfl
    have hs1text : s.yankCurrentSelection.text = s.text := rfl
    set e : Edit := ⟨psel.range.start, slice s.text psel.range.start nstart, []⟩ with he
    have hkill : killRange pmode.isContiguous .Forward ysel (step ysel)
        = ⟨psel.range.start, nstart⟩ := by
      unfold killRange
      rw [hmode]
      simp [hstep, hysel]
    have hgroup : deleteGroup s.yankCurrentSelection.text
        s.yankCurrentSelection.selection_set.mode .Forward step ysel
        = [Action.edit e,
           Action.select ⟨⟨psel.range.start, psel.range.start⟩, none, ysel.yanked_text⟩] := by
      unfold deleteGroup
      rw [hs1text, hs1]
      simp only [hkill]
    have hlist : s.yankCurrentSelection.selection_set.toList = [ysel] := by
      rw [hs1]
      rfl
    have hre : Editor.deleteCurrentSelection parse step .Forward s
        = Editor.applyEditTransaction parse .NewEdit
            (Txn.fromGroups s.yankCurrentSelection.selection_set
              (s.yankCurrentSelection.selection_set.toList.map
                (deleteGroup s.yankCurrentSelection.text
                  s.yankCurrentSelection.selection_set.mode .Forward step)))
            s.yankCurrentSelection := rfl
    rw [hre, hlist]
    simp only [List.map_cons, List.map_nil]
    set txn : Txn := Txn.fromGroups s.yankCurrentSelection.selection_set
      [deleteGroup s.yankCurrentSelection.text
        s.yankCurrentSelection.selection_set.mode .Forward step ysel] with htxn
    have hgroups : txn.action_groups = [[Action.edit e,
        Action.select ⟨⟨psel.range.start, psel.range.start⟩, none, ysel.yanked_text⟩]] := by
      rw [htxn, hgroup]
      exact fromGroups_single _ _
    have hedits : txn.edits = [e] := by
      unfold Txn.edits
      rw [hgroups]
      rfl
    have hsliceLen : (slice s.text psel.range.start nstart).length
        = nstart - psel.range.start :=
      length_slice s.text psel.range.start nstart hord hbound
    have hap : applyEdits s.yankCurrentSelection.text txn.edits
        = some (s.text.take psel.range.start ++ s.text.drop nstart) := by
      rw [hedits, hs1text]
      unfold applyEdits applyEdit
      rw [if_pos (by rw [he]; simp only [hsliceLen]; omega)]
      unfold Edit.splice
      rw [he]
      simp only [hsliceLen, List.append_nil]
      rw [show psel.range.start + (nstart - psel.range.start) = nstart by omega]
      simp [applyEdits]
    obtain ⟨s3, h3, htext3, _, _, _, _⟩ :=
      applyTxn_characterization parse .NewEdit txn s.yankCurrentSelection _ hap
    rw [h3]
    simp [htext3]

/-- Witness for C4: a Token-mode delete on `"ab cd"` with the next selection
at the second word removes `"ab "`, leaving `"cd"`. -/
theorem claim_c4_witness :
    (Editor.deleteCurrentSelection (fun t => t) sampleC4Step .Forward
        sampleC4Editor).map Editor.text = some ['c', 'd'] := by
  have h := (claim_c4_delete_kill Rope (fun t => t) sampleC4Step .Forward
    sampleC4Editor SelectionMode.Token sampleSelection sampleSelection
    []).2.2.2.2 ⟨⟨0, 2⟩, none, none⟩ SelectionMode.Token rfl rfl 3 rfl
    (by decide) (by decide)
  simpa using h

/-! Claim C5. -/

theorem genJumps_length_le (step : Selection → Selection) :
    ∀ (cs : List Char) (cur : Selection), (genJumps step cur cs).length ≤ cs.length := by
  intro cs
  induction cs with
  | nil => intro cur; simp [genJumps]
  | cons c cs ih =>
      intro cur
      show (if step cur ≠ cur
          then (⟨c, step cur⟩ : Jump) :: genJumps step (step cur) cs
          else []).length ≤ (c :: cs).length
      by_cases h : step cur ≠ cur
      · rw [if_pos h]
        simpa using ih (step cur)
      · rw [if_neg h]
        simp

theorem genJumps_labels (step : Selection → Selection) :
    ∀ (cs : List Char) (cur : Selection),
      ∃ rest, cs = (genJumps step cur cs).map Jump.character ++ rest := by
  intro cs
  induction cs with
  | nil => intro cur; exact ⟨[], rfl⟩
  | cons c cs ih =>
      intro cur
      show ∃ rest, c :: cs = (if step cur ≠ cur
          then (⟨c, step cur⟩ : Jump) :: genJumps step (step cur) cs
          else []).map Jump.character ++ rest
      by_cases h : step cur ≠ cur
      · rw [if_pos h]
        obtain ⟨rest, hrest⟩ := ih (step cur)
        exact ⟨rest, by simpa using congrArg (c :: ·) hrest⟩
      · rw [if_neg h]
        exact ⟨c :: cs, rfl⟩

/-- C5: entering jump mode from any selection labels the candidates, in
order, with the alphabet a..z interleaved with A..Z interleaved with 0..9
followed by ',' and '.', with 'j' and 'J' excluded; the labels used are a
prefix of that 62-character alphabet, hence at most 64 candidates are
produced; and generation stops as soon as stepping the mode reaches a fixed
point. -/
theorem claim_c5_jump_candidates (τ : Type) (step : Selection → Selection)
    (sel : Selection) (s : Editor τ) :
    (Editor.jumpFromSelection step sel s).mode = .Jump (genJumps step sel jumpChars) ∧
    (genJumps step sel jumpChars).length ≤ 64 ∧
    jumpChars.length = 62 ∧
    (∃ rest, jumpChars = (genJumps step sel jumpChars).map Jump.character ++ rest) ∧
    'j' ∉ jumpChars ∧ 'J' ∉ jumpChars ∧
    (∀ (cur : Selection) (c : Char) (cs : List Char),
      step cur = cur → genJumps step cur (c :: cs) = []) := by
  refine ⟨rfl, ?_, by decide, genJumps_labels step jumpChars sel, by decide, by decide, ?_⟩
  · have h1 := genJumps_length_le step jumpChars sel
    have h2 : jumpChars.length = 62 := by decide
    omega
  · intro cur c cs h
    show (if step cur ≠ cur
        then (⟨c, step cur⟩ : Jump) :: genJumps step (step cur) cs
        else []) = []
    rw [if_neg (by simp [h])]

/-- Witness for C5: with the identity step the generation stops at once. -/
theorem claim_c5_witness :
    genJumps (fun x : Selection => x) sampleSelection ('a' :: []) = [] :=
  (claim_c5_jump_candidates Rope (fun x => x) sampleSelection
    (mkEditor [])).2.2.2.2.2.2 sampleSelection 'a' [] rfl

/-! Claim C6. -/

/-- C6: for every selection carrying a yanked text, paste builds one action
group inserting that text at the selection's cursor anchor; a selection
whose yank slot is empty contributes no group (hence no edit).  Running a
single-cursor paste end to end: the text is inserted at the anchor, and the
resulting selection covers exactly the inserted characters in Normal (and
Jump) mode, or is an empty caret immediately after them in Insert mode. -/
theorem claim_c6_paste (τ : Type) (parse : Rope → τ) (s : Editor τ) (x : Selection) :
    (x.yanked_text = none → pasteGroup s.mode s.cursor_direction x = []) ∧
    (∀ yt, x.yanked_text = some yt →
      pasteGroup s.mode s.cursor_direction x =
        [[Action.edit ⟨x.toCharIndex s.cursor_direction, [], yt⟩,
          Action.select
            ⟨(match s.mode with
              | .Insert => ⟨x.toCharIndex s.cursor_direction + yt.length,
                            x.toCharIndex s.cursor_direction + yt.length⟩
              | _ => ⟨x.toCharIndex s.cursor_direction,
                      x.toCharIndex s.cursor_direction + yt.length⟩),
             none, some yt⟩]]) ∧
    (∀ (psel : Selection) (smode : SelectionMode) (yt : Rope),
      s.selection_set = ⟨psel, [], smode⟩ →
      psel.yanked_text = some yt →
      psel.toCharIndex s.cursor_direction ≤ s.text.length →
      ∃ s2, Editor.paste parse s = some s2 ∧
        s2.text = s.text.take (psel.toCharIndex s.cursor_direction) ++ yt ++
          s.text.drop (psel.toCharIndex s.cursor_direction) ∧
        slice s2.text (psel.toCharIndex s.cursor_direction)
          (psel.toCharIndex s.cursor_direction + yt.length) = yt ∧
        s2.selection_set.secondary = [] ∧
        (s.mode ≠ .Insert →
          s2.selection_set.primary.range =
            ⟨psel.toCharIndex s.cursor_direction,
             psel.toCharIndex s.cursor_direction + yt.length⟩) ∧
        (s.mode = .Insert →
          s2.selection_set.primary.range =
            ⟨psel.toCharIndex s.cursor_direction + yt.length,
             psel.toCharIndex s.cursor_direction + yt.length⟩)) := by
  refine ⟨?_, ?_, ?_⟩
  · intro h
    unfold pasteGroup
    rw [h]
  · intro yt h
    unfold pasteGroup
    rw [h]
  · intro psel smode yt hss hyank hbound
    set a := psel.toCharIndex s.cursor_direction with ha
    have hre : Editor.paste parse s
        = Editor.applyEditTransaction parse .NewEdit
            (Txn.fromGroups s.selection_set
              ((s.selection_set.toList.map (pasteGroup s.mode s.cursor_direction)).flatten))
            s := rfl
    have hlist : s.selection_set.toList = [psel] := by
      rw [hss]
      rfl
    have hpg : pasteGroup s.mode s.cursor_direction psel =
        [[Action.edit ⟨a, [], yt⟩,
          Action.select
            ⟨(match s.mode with
              | .Insert => ⟨a + yt.length, a + yt.length⟩
              | _ => ⟨a, a + yt.length⟩), none, some yt⟩]] := by
      unfold pasteGroup
      rw [hyank]
    rw [hre, hlist]
    simp only [List.map_cons, List.map_nil, hpg, List.flatten_cons, List.flatten_nil,
      List.append_nil]
    set sel2 : Selection :=
      ⟨(match s.mode with
        | .Insert => ⟨a + yt.length, a + yt.length⟩
        | _ => ⟨a, a + yt.length⟩), none, some yt⟩ with hsel2
    set txn : Txn := Txn.fromGroups s.selection_set
      [[Action.edit ⟨a, [], yt⟩, Action.select sel2]] with htxn
    have hgroups : txn.action_groups
        = [[Action.edit ⟨a, [], yt⟩, Action.select sel2]] := fromGroups_single _ _
    have hedits : txn.edits = [⟨a, [], yt⟩] := by
      unfold Txn.edits
      rw [hgroups]
      rfl
    have hsels : txn.selections = [sel2] := by
      unfold Txn.selections
      rw [hgroups]
      rfl
    have hap : applyEdits s.text txn.edits
        = some (s.text.take a ++ yt ++ s.text.drop a) := by
      rw [hedits]
      unfold applyEdits applyEdit
      rw [if_pos (by simp; omega)]
      unfold Edit.splice
      simp [applyEdits]
    obtain ⟨s2, h2, htext2, _, _, _, hsel2'⟩ :=
      applyTxn_characterization parse .NewEdit txn s _ hap
    rw [hsels] at hsel2'
    have hAlen : (s.text.take a).length = a := length_take_le s.text a hbound
    refine ⟨s2, h2, htext2, ?_, ?_, ?_, ?_⟩
    · have hsl := slice_middle (s.text.take a) yt (s.text.drop a)
      rw [hAlen] at hsl
      rw [htext2]
      exact hsl
    · rw [hsel2']
    · intro hm
      rw [hsel2']
      show sel2.range = _
      rw [hsel2]
      cases hmode : s.mode with
      | Insert => exact absurd hmode hm
      | Normal => rfl
      | Jump js => rfl
    · intro hm
      rw [hsel2']
      show sel2.range = _
      rw [hsel2, hm]

/-- Witness for C6: pasting the yanked `"XY"` at index 1 of `"ab"` in
Normal mode yields `"aXYb"` with the pasted text selected. -/
theorem claim_c6_witness :
    ∃ s2, Editor.paste (fun t => t) sampleC6Editor = some s2 ∧
      s2.text = ['a', 'X', 'Y', 'b'] ∧
      s2.selection_set.primary.range = ⟨1, 3⟩ := by
  obtain ⟨s2, h1, h2, _, _, h5, _⟩ :=
    (claim_c6_paste Rope (fun t => t) sampleC6Editor sampleSelection).2.2
      ⟨⟨1, 1⟩, none, some ['X', 'Y']⟩ SelectionMode.Custom ['X', 'Y'] rfl rfl (by decide)
  refine ⟨s2, h1, by simpa using h2, by simpa using h5 (by decide)⟩

/-! Claim C7. -/

theorem selectBackwardAux_snd : ∀ (l : List SelectionSet) (cur : SelectionSet),
    (selectBackwardAux cur l).2 =
      (l.find? (fun x => decide ¬(x = cur))).getD cur := by
  intro l
  induction l with
  | nil => intro cur; rfl
  | cons top rest ih =>
      intro cur
      unfold selectBackwardAux
      by_cases h : top = cur
      · rw [if_neg (fun hne => hne h), List.find?_cons_of_neg _ (by simp [h])]
        exact ih cur
      · rw [if_pos h, List.find?_cons_of_pos _ (by simp [h])]
        rfl

/-- C7: `select_backward` installs the most recently pushed selection set in
the history that differs from the current one; if every entry equals the
current set (or the history is empty) the current selection set is
unchanged. -/
theorem claim_c7_select_backward (τ : Type) (s : Editor τ) :
    (Editor.selectBackward s).selection_set =
      ((s.selection_history.find? (fun x => decide ¬(x = s.selection_set))).getD
        s.selection_set) ∧
    ((∀ x ∈ s.selection_history, x = s.selection_set) →
      (Editor.selectBackward s).selection_set = s.selection_set) := by
  have h1 : (Editor.selectBackward s).selection_set
      = (selectBackwardAux s.selection_set s.selection_history).2 := rfl
  constructor
  · rw [h1, selectBackwardAux_snd]
  · intro hall
    rw [h1, selectBackwardAux_snd]
    have hnone : s.selection_history.find? (fun x => decide ¬(x = s.selection_set))
        = none := by
      rw [List.find?_eq_none]
      intro x hx
      simp [hall x hx]
    rw [hnone]
    rfl

/-- Witness for C7 on an editor with an empty selection history. -/
theorem claim_c7_witness :
    (Editor.selectBackward (mkEditor [])).selection_set
      = (mkEditor ([] : Rope)).selection_set := by
  refine (claim_c7_select_backward Rope (mkEditor [])).2 ?_
  intro x hx
  have hh : (mkEditor ([] : Rope)).selection_history = [] := rfl
  rw [hh] at hx
  cases hx

/-! Claim C8. -/

/-- Helper: `update_selection_set` recentres the scroll offset to
`cursor_row - (height - 2) / 2` whenever the out-of-view condition holds,
stated through an explicit value of the truncated cursor row. -/
theorem updateSS_scroll_recenter (τ : Type) (s : Editor τ) (ss : SelectionSet)
    (cr : Nat)
    (hcr : charToRow s.text (ss.primary.toCharIndex s.cursor_direction) % 65536 = cr)
    (h : cr < s.scroll_offset ∨ s.dimension.height - 2 ≤ cr - s.scroll_offset) :
    (s.updateSelectionSet ss).scroll_offset = cr - (s.dimension.height - 2) / 2 := by
  subst hcr
  unfold Editor.updateSelectionSet Editor.recalculateScrollOffset
    Editor.alignCursorToCenter
  split
  · rfl
  · next hc => exact absurd (Or.symm h) hc

/-- C8 (amended): after a selection-set change through
`update_selection_set`, with `cursor_row` the primary cursor's row truncated
to 16 bits (the `as u16` cast in `Editor::cursor_row`, i.e. the row modulo
65536): if `cursor_row` is below the scroll offset or at least `height - 2`
rows past it, the scroll offset is recentred to
`max 0 (cursor_row - (height - 2) / 2)`; otherwise it is unchanged.  The
two hypotheses record the u16 width of the scroll-offset and height fields. -/
theorem claim_c8_scroll_recenter (τ : Type) (s : Editor τ) (ss : SelectionSet)
    (_hso : s.scroll_offset < 65536) (_hht : s.dimension.height < 65536) :
    ((charToRow s.text (ss.primary.toCharIndex s.cursor_direction) % 65536
        < s.scroll_offset ∨
      s.dimension.height - 2 ≤
        charToRow s.text (ss.primary.toCharIndex s.cursor_direction) % 65536
          - s.scroll_offset) →
      (s.updateSelectionSet ss).scroll_offset =
        max 0 (charToRow s.text (ss.primary.toCharIndex s.cursor_direction) % 65536
          - (s.dimension.height - 2) / 2)) ∧
    (¬(charToRow s.text (ss.primary.toCharIndex s.cursor_direction) % 65536
        < s.scroll_offset ∨
      s.dimension.height - 2 ≤
        charToRow s.text (ss.primary.toCharIndex s.cursor_direction) % 65536
          - s.scroll_offset) →
      (s.updateSelectionSet ss).scroll_offset = s.scroll_offset) := by
  constructor
  · intro h
    unfold Editor.updateSelectionSet Editor.recalculateScrollOffset
      Editor.alignCursorToCenter
    split
    · rw [Nat.zero_max]
      rfl
    · next hc => exact absurd (Or.symm h) hc
  · intro h
    unfold Editor.updateSelectionSet Editor.recalculateScrollOffset
      Editor.alignCursorToCenter
    split
    · next hc => exact absurd (Or.symm hc) h
    · rfl

/-- Witness for C8 (amended): on a 20-line buffer with a height-10
viewport, moving the cursor to row 15 recentres the offset to 11; keeping
it on row 0 leaves the offset unchanged. -/
theorem claim_c8_witness :
    (sampleC8Editor.updateSelectionSet sampleC8SelSet).scroll_offset = 11 ∧
    (sampleC8Editor.updateSelectionSet sampleC8Editor.selection_set).scroll_offset
      = sampleC8Editor.scroll_offset := by
  constructor
  · have h := (claim_c8_scroll_recenter Rope sampleC8Editor sampleC8SelSet
      (by decide) (by decide)).1 (by decide)
    rw [h]
    decide
  · exact (claim_c8_scroll_recenter Rope sampleC8Editor
      sampleC8Editor.selection_set (by decide) (by decide)).2 (by decide)

/-- Counterexample to C8 as stated: `Editor::cursor_row` truncates the row
with `as u16`.  On a buffer of 70001 rows with the cursor on row 70000 and
a height-10 viewport at offset 0 — a state satisfying the claim's
recentring condition read with the true row — the program recentres to
`70000 % 65536 - (10 - 2) / 2 = 4460`, not to the claim's
`max 0 (70000 - (10 - 2) / 2) = 69996`. -/
theorem claim_c8_counterexample :
    charToRow sampleC8BigEditor.text
      (sampleC8BigSelSet.primary.toCharIndex sampleC8BigEditor.cursor_direction)
      = 70000 ∧
    sampleC8BigEditor.dimension.height - 2 ≤
      charToRow sampleC8BigEditor.text
        (sampleC8BigSelSet.primary.toCharIndex sampleC8BigEditor.cursor_direction)
        - sampleC8BigEditor.scroll_offset ∧
    (sampleC8BigEditor.updateSelectionSet sampleC8BigSelSet).scroll_offset = 4460 ∧
    max 0 (charToRow sampleC8BigEditor.text
        (sampleC8BigSelSet.primary.toCharIndex sampleC8BigEditor.cursor_direction)
      - (sampleC8BigEditor.dimension.height - 2) / 2) = 69996 ∧
    (4460 : Nat) ≠ 69996 := by
  have hrow : charToRow sampleC8BigEditor.text
      (sampleC8BigSelSet.primary.toCharIndex sampleC8BigEditor.cursor_direction)
      = 70000 := by
    show charToRow (List.replicate 70000 '\n') 70000 = 70000
    unfold charToRow
    rw [List.take_replicate, Nat.min_self, List.count_replicate_self]
  have hcr64 : charToRow sampleC8BigEditor.text
      (sampleC8BigSelSet.primary.toCharIndex sampleC8BigEditor.cursor_direction)
      % 65536 = 4464 := by
    rw [hrow]
  refine ⟨hrow, ?_, ?_, ?_, by decide⟩
  · rw [hrow]
    decide
  · have h3 := updateSS_scroll_recenter Rope sampleC8BigEditor sampleC8BigSelSet
      4464 hcr64 (Or.inr (by decide))
    rw [h3]
    decide
  · rw [hrow]
    decide

/-! Claim C9. -/

/-- C9 (amended): mouse scrolling up saturates the offset at zero (scrolling
up at offset 0 leaves it 0), but scrolling down saturates only at the u16
maximum 65535: it never consults the buffer, so it is not clamped at the
buffer's last line. -/
theorem claim_c9_scroll_saturation (τ : Type) (s : Editor τ) :
    (s.scroll_offset = 0 → (s.handleMouseEvent .ScrollUp).scroll_offset = 0) ∧
    (s.handleMouseEvent .ScrollUp).scroll_offset = s.scroll_offset - 1 ∧
    (s.handleMouseEvent .ScrollDown).scroll_offset = min (s.scroll_offset + 1) U16_MAX ∧
    (s.handleMouseEvent .ScrollDown).text = s.text := by
  refine ⟨?_, rfl, rfl, rfl⟩
  intro h
  show s.scroll_offset - 1 = 0
  omega

/-- Witness for C9 (amended) at a concrete editor with offset 0. -/
theorem claim_c9_witness :
    ((mkEditor ['a']).handleMouseEvent .ScrollUp).scroll_offset = 0 :=
  (claim_c9_scroll_saturation Rope (mkEditor ['a'])).1 rfl

/-- Counterexample to C9 as stated: on a one-line buffer at offset 0,
scrolling down moves the offset to 1, past the buffer's last line 0. -/
theorem claim_c9_counterexample :
    ((mkEditor ['a']).handleMouseEvent .ScrollDown).scroll_offset = 1 ∧
    lastLineIndex (mkEditor ['a']).text = 0 ∧
    ¬(((mkEditor ['a']).handleMouseEvent .ScrollDown).scroll_offset ≤
        lastLineIndex ((mkEditor ['a']).handleMouseEvent .ScrollDown).text) := by
  refine ⟨by decide, by decide, by decide⟩

/-! Claim C10. -/

/-- C10: entering insert mode collapses every selection (primary and
secondaries) to an empty range at its cursor-direction end, sets the
selection mode to Custom, clears the extended-selection anchor, resets the
cursor direction to Start, enters Insert, and leaves the rope and tree
unchanged. -/
theorem claim_c10_enter_insert_mode (τ : Type) (s : Editor τ) :
    s.enterInsertMode.text = s.text ∧
    s.enterInsertMode.tree = s.tree ∧
    s.enterInsertMode.mode = .Insert ∧
    s.enterInsertMode.cursor_direction = .Start ∧
    s.enterInsertMode.extended_selection_anchor = none ∧
    s.enterInsertMode.selection_set.mode = .Custom ∧
    s.enterInsertMode.selection_set.primary.range =
      ⟨s.selection_set.primary.toCharIndex s.cursor_direction,
       s.selection_set.primary.toCharIndex s.cursor_direction⟩ ∧
    s.enterInsertMode.selection_set.secondary =
      s.selection_set.secondary.map (fun sel =>
        { sel with range := ⟨sel.toCharIndex s.cursor_direction,
                             sel.toCharIndex s.cursor_direction⟩ }) ∧
    (∀ sel ∈ s.enterInsertMode.selection_set.toList, sel.range.start = sel.range.stop) := by
  refine ⟨rfl, rfl, rfl, rfl, rfl, rfl, rfl, rfl, ?_⟩
  intro sel hsel
  rcases List.mem_cons.mp hsel with h | h
  · rw [h]
    rfl
  · have hsec : sel ∈ s.selection_set.secondary.map (fun x : Selection =>
        { x with range := ⟨x.toCharIndex s.cursor_direction,
                           x.toCharIndex s.cursor_direction⟩ }) := h
    obtain ⟨x, _, rfl⟩ := List.mem_map.mp hsec
    rfl

end KiEditor
